import Mathlib

/-!
# NotesApp: a shallow embedding of `src/App.js`

The React component `App` keeps its state in `useState` cells and persists the
note list under the single AsyncStorage key `'notes'`.  Every handler of the
component is embedded as a function on an explicit state record `App`; inputs
the handler takes from the device (the clock read by `Date.now()`, whether the
storage call succeeds, the answer to the delete confirmation) are explicit
arguments.

JavaScript strings are modelled by Lean `String`s (sequences of Unicode scalar
values); `null` is `none`.
-/

namespace NotesApp

/-! ## JavaScript string primitives used by the component -/

/-- The characters `String.prototype.trim` strips: ECMAScript `WhiteSpace` and
`LineTerminator` code points. -/
def isJsWhiteSpace (c : Char) : Bool :=
  let n := c.toNat
  n == 0x09 || n == 0x0A || n == 0x0B || n == 0x0C || n == 0x0D || n == 0x20 ||
  n == 0xA0 || n == 0x1680 || (0x2000 ≤ n && n ≤ 0x200A) || n == 0x2028 ||
  n == 0x2029 || n == 0x202F || n == 0x205F || n == 0x3000 || n == 0xFEFF

/-- `trim` on the character sequence: white space is dropped at both ends. -/
def trimChars (cs : List Char) : List Char :=
  ((cs.dropWhile isJsWhiteSpace).reverse.dropWhile isJsWhiteSpace).reverse

/-- `s.trim()`. -/
def jsTrim (s : String) : String := ⟨trimChars s.data⟩

/-- `s.split(sep)` for a one-character separator, on the character sequence:
the pieces between the separators, empty pieces kept; the empty input gives one
empty piece. -/
def splitChars (sep : Char) : List Char → List (List Char)
  | [] => [[]]
  | c :: cs =>
    if c = sep then [] :: splitChars sep cs
    else
      match splitChars sep cs with
      | [] => [[c]]
      | p :: ps => (c :: p) :: ps

/-- `s.split(',')`. -/
def jsSplitComma (s : String) : List String :=
  (splitChars ',' s.data).map String.mk

/-- `xs.join(', ')`. -/
def jsJoinCommaSpace (xs : List String) : String :=
  ⟨List.intercalate [',', ' '] (xs.map String.data)⟩

/-- `s.includes(q)` on the character sequences: `q` occurs in `s` at some
position. -/
def includesChars (q : List Char) : List Char → Bool
  | [] => q.isEmpty
  | c :: cs => q.isPrefixOf (c :: cs) || includesChars q cs

/-- `s.includes(q)`. -/
def jsIncludes (s q : String) : Bool := includesChars q.data s.data

/-- Truthiness of a string: the empty string is falsy. -/
def strTruthy (s : String) : Bool := s != ""

/-- Truthiness of a value that is `null` or a string. -/
def optTruthy : Option String → Bool
  | none => false
  | some s => strTruthy s

/-- `x || null` for a value that is `null` or a string. -/
def orNull (x : Option String) : Option String :=
  if optTruthy x then x else none

/-! ## Data model -/

/-- A note object, with the keys in the order the component creates them. -/
structure Note where
  id : String
  title : String
  text : String
  tags : List String
  image : Option String
  audioUri : Option String
  favorite : Bool
  archived : Bool
  deriving DecidableEq, Repr

/-- The `useState` cells of `App` that the handlers read or write, together
with `stored`, the value under the AsyncStorage key `'notes'` (`none` when the
key is absent). -/
structure App where
  notes : List Note
  title : String
  text : String
  tags : String
  modalVisible : Bool
  editNote : Option Note
  searchQuery : String
  filter : String
  image : Option String
  audioUri : Option String
  stored : Option String
  deriving DecidableEq, Repr

/-! ## `JSON.stringify` and `JSON.parse`

JSON values without an interpretation of number literals: the note schema has
no numeric field, so a number is kept as its lexeme.  An object is its member
list in the order of the text. -/

/-- A JSON value. -/
inductive Json where
  | null
  | bool (b : Bool)
  | num (lexeme : String)
  | str (s : String)
  | arr (xs : List Json)
  | obj (members : List (String × Json))

/-- A hexadecimal digit, lower case, as `JSON.stringify` writes it in a
`\uXXXX` escape. -/
def hexDigit (n : Nat) : Char :=
  if n < 10 then Char.ofNat (48 + n) else Char.ofNat (87 + n)

/-- `QuoteJSONString` for one character: the seven short escapes, `\u00XX` for
the other control characters, every other character as itself. -/
def quoteChar (c : Char) : List Char :=
  if c = '"' then ['\\', '"']
  else if c = '\\' then ['\\', '\\']
  else if c.toNat = 0x08 then ['\\', 'b']
  else if c.toNat = 0x0C then ['\\', 'f']
  else if c.toNat = 0x0A then ['\\', 'n']
  else if c.toNat = 0x0D then ['\\', 'r']
  else if c.toNat = 0x09 then ['\\', 't']
  else if c.toNat < 0x20 then
    ['\\', 'u', '0', '0', hexDigit (c.toNat / 16), hexDigit (c.toNat % 16)]
  else [c]

/-- `QuoteJSONString`: the string between double quotes, each character
escaped by `quoteChar`. -/
def quoteJson (s : String) : List Char :=
  '"' :: (s.data.flatMap quoteChar ++ ['"'])

mutual
/-- `JSON.stringify(v)` without indentation, as a character sequence. -/
def stringifyJson : Json → List Char
  | .null => ['n', 'u', 'l', 'l']
  | .bool true => ['t', 'r', 'u', 'e']
  | .bool false => ['f', 'a', 'l', 's', 'e']
  | .num l => l.data
  | .str s => quoteJson s
  | .arr xs => '[' :: (stringifyElements xs ++ [']'])
  | .obj ms => '{' :: (stringifyMembers ms ++ ['}'])
/-- The elements of an array, separated by commas. -/
def stringifyElements : List Json → List Char
  | [] => []
  | [v] => stringifyJson v
  | v :: w :: vs => stringifyJson v ++ ',' :: stringifyElements (w :: vs)
/-- The members of an object, `"key":value`, separated by commas. -/
def stringifyMembers : List (String × Json) → List Char
  | [] => []
  | [(k, v)] => quoteJson k ++ ':' :: stringifyJson v
  | (k, v) :: m :: ms =>
    quoteJson k ++ ':' :: (stringifyJson v ++ ',' :: stringifyMembers (m :: ms))
end

/-- `JSON.stringify(v)`. -/
def jsonStringify (v : Json) : String := ⟨stringifyJson v⟩

/-- JSON white space between tokens is skipped. -/
def skipWs : List Char → List Char
  | [] => []
  | c :: cs =>
    if c = ' ' ∨ c = '\t' ∨ c = '\n' ∨ c = '\r' then skipWs cs else c :: cs

/-- The value of a hexadecimal digit of either case. -/
def hexVal (c : Char) : Option Nat :=
  let n := c.toNat
  if 48 ≤ n ∧ n ≤ 57 then some (n - 48)
  else if 97 ≤ n ∧ n ≤ 102 then some (n - 87)
  else if 65 ≤ n ∧ n ≤ 70 then some (n - 55)
  else none

/-- The code unit written by the four hexadecimal digits of a `\uXXXX`
escape. -/
def hex4 (a b c d : Char) : Option Nat :=
  match hexVal a, hexVal b, hexVal c, hexVal d with
  | some x, some y, some z, some w => some (((x * 16 + y) * 16 + z) * 16 + w)
  | _, _, _, _ => none

/-- The character an escape letter after a backslash stands for. -/
def escapeLetter (c : Char) : Option Char :=
  if c = '"' then some '"'
  else if c = '\\' then some '\\'
  else if c = '/' then some '/'
  else if c = 'b' then some (Char.ofNat 0x08)
  else if c = 'f' then some (Char.ofNat 0x0C)
  else if c = 'n' then some (Char.ofNat 0x0A)
  else if c = 'r' then some (Char.ofNat 0x0D)
  else if c = 't' then some (Char.ofNat 0x09)
  else none

/-- A JSON string after its opening quote: the characters up to the closing
quote and the text after it.  A raw control character is a syntax error.  A
`\uXXXX` escape of a surrogate code unit has no counterpart in a sequence of
scalar values and is rejected here; `JSON.stringify` never writes one for such
a sequence. -/
def parseStringBody : List Char → Option (List Char × List Char)
  | [] => none
  | c :: cs =>
    if c = '"' then some ([], cs)
    else if c = '\\' then
      match cs with
      | [] => none
      | e :: r =>
        if e = 'u' then
          match r with
          | a :: b :: c :: d :: r4 =>
            match hex4 a b c d with
            | some n =>
              if 0xD800 ≤ n ∧ n ≤ 0xDFFF then none
              else (parseStringBody r4).map fun p => (Char.ofNat n :: p.1, p.2)
            | none => none
          | _ => none
        else
          match escapeLetter e with
          | some x => (parseStringBody r).map fun p => (x :: p.1, p.2)
          | none => none
    else if c.toNat < 0x20 then none
    else (parseStringBody cs).map fun p => (c :: p.1, p.2)

/-- The longest run of decimal digits at the front, and the rest. -/
def spanDigits : List Char → List Char × List Char
  | [] => ([], [])
  | c :: cs =>
    if c.isDigit then ((spanDigits cs).1.cons c, (spanDigits cs).2) else ([], c :: cs)

/-- A JSON number literal `-? int frac? exp?` at the front: its lexeme and the
rest. -/
def parseNumber (cs : List Char) : Option (List Char × List Char) :=
  let (sign, r0) := match cs with
    | '-' :: r => (['-'], r)
    | r => ([], r)
  let (int, r1) := spanDigits r0
  if int = [] ∨ (int.head? = some '0' ∧ int.length ≠ 1) then none
  else
    let fracPart : Option (List Char × List Char) :=
      match r1 with
      | '.' :: r =>
        let (ds, r2) := spanDigits r
        if ds = [] then none else some ('.' :: ds, r2)
      | r => some ([], r)
    match fracPart with
    | none => none
    | some (frac, r2) =>
      match r2 with
      | e :: r =>
        if e = 'e' ∨ e = 'E' then
          let (sg, r3) := match r with
            | '+' :: t => (['+'], t)
            | '-' :: t => (['-'], t)
            | t => ([], t)
          let (ds, r4) := spanDigits r3
          if ds = [] then none else some (sign ++ int ++ frac ++ e :: sg ++ ds, r4)
        else some (sign ++ int ++ frac, r2)
      | [] => some (sign ++ int ++ frac, r2)

/-- The elements of a non-empty array after `[`, up to and including `]`;
`pv` reads one value. -/
def parseElements (pv : List Char → Option (Json × List Char)) :
    Nat → List Char → Option (List Json × List Char)
  | 0, _ => none
  | n + 1, cs =>
    match pv cs with
    | none => none
    | some (v, r) =>
      match skipWs r with
      | c :: r1 =>
        if c = ',' then (parseElements pv n r1).map fun p => (v :: p.1, p.2)
        else if c = ']' then some ([v], r1)
        else none
      | [] => none

/-- The members of a non-empty object after the opening brace, up to and
including the closing brace; `pv` reads one value. -/
def parseMembers (pv : List Char → Option (Json × List Char)) :
    Nat → List Char → Option (List (String × Json) × List Char)
  | 0, _ => none
  | n + 1, cs =>
    match skipWs cs with
    | q :: r =>
      if q = '"' then
        match parseStringBody r with
        | none => none
        | some (k, r1) =>
          match skipWs r1 with
          | c :: r2 =>
            if c = ':' then
              match pv r2 with
              | none => none
              | some (v, r3) =>
                match skipWs r3 with
                | d :: r4 =>
                  if d = ',' then
                    (parseMembers pv n r4).map fun p => ((String.mk k, v) :: p.1, p.2)
                  else if d = '}' then some ([(String.mk k, v)], r4)
                  else none
                | [] => none
            else none
          | [] => none
      else none
    | [] => none

/-- One JSON value at the front of the text, after optional white space, and
the rest of the text.  `fuel` bounds the nesting depth and the number of
elements of each array and object. -/
def parseValue : Nat → List Char → Option (Json × List Char)
  | 0, _ => none
  | fuel + 1, cs =>
    match skipWs cs with
    | [] => none
    | c :: r =>
      if c = '"' then
        (parseStringBody r).map fun p => (Json.str (String.mk p.1), p.2)
      else if c = '[' then
        match skipWs r with
        | [] => none
        | d :: r1 =>
          if d = ']' then some (Json.arr [], r1)
          else (parseElements (parseValue fuel) fuel (d :: r1)).map fun p => (Json.arr p.1, p.2)
      else if c = '{' then
        match skipWs r with
        | [] => none
        | d :: r1 =>
          if d = '}' then some (Json.obj [], r1)
          else (parseMembers (parseValue fuel) fuel (d :: r1)).map fun p => (Json.obj p.1, p.2)
      else if ['n', 'u', 'l', 'l'].isPrefixOf (c :: r) then some (Json.null, (c :: r).drop 4)
      else if ['t', 'r', 'u', 'e'].isPrefixOf (c :: r) then
        some (Json.bool true, (c :: r).drop 4)
      else if ['f', 'a', 'l', 's', 'e'].isPrefixOf (c :: r) then
        some (Json.bool false, (c :: r).drop 5)
      else (parseNumber (c :: r)).map fun p => (Json.num (String.mk p.1), p.2)

/-- `JSON.parse(s)`: one value with nothing but white space after it; `none`
is a `SyntaxError` (or a surrogate escape, see `parseStringBody`).  The fuel is
the length of the text, which every nesting level and every element uses up at
least one character of. -/
def jsonParse (s : String) : Option Json :=
  match parseValue (s.data.length + 1) s.data with
  | some (v, r) => if skipWs r = [] then some v else none
  | none => none

/-! ## Notes as JSON -/

/-- A value that is `null` or a string, as JSON. -/
def optToJson : Option String → Json
  | none => Json.null
  | some s => Json.str s

/-- The JSON value of a note object: its keys in creation order. -/
def Note.toJson (n : Note) : Json :=
  Json.obj [("id", Json.str n.id), ("title", Json.str n.title), ("text", Json.str n.text),
    ("tags", Json.arr (n.tags.map Json.str)), ("image", optToJson n.image),
    ("audioUri", optToJson n.audioUri), ("favorite", Json.bool n.favorite),
    ("archived", Json.bool n.archived)]

/-- The JSON value of the note array. -/
def notesToJson (l : List Note) : Json := Json.arr (l.map Note.toJson)

/-- A JSON string as a string. -/
def strOfJson : Json → Option String
  | Json.str s => some s
  | _ => none

/-- A JSON `null` or string as an optional string. -/
def optOfJson : Json → Option (Option String)
  | Json.null => some none
  | Json.str s => some (some s)
  | _ => none

/-- Every entry of the list, when all are present. -/
def allSome {α : Type} : List (Option α) → Option (List α)
  | [] => some []
  | none :: _ => none
  | some a :: xs => (allSome xs).map (List.cons a)

/-- A parsed value read back as a note object of the schema. -/
def noteOfJson : Json → Option Note
  | Json.obj [(k1, Json.str id), (k2, Json.str title), (k3, Json.str text),
      (k4, Json.arr tags), (k5, image), (k6, audioUri), (k7, Json.bool favorite),
      (k8, Json.bool archived)] =>
    if k1 = "id" ∧ k2 = "title" ∧ k3 = "text" ∧ k4 = "tags" ∧ k5 = "image" ∧
        k6 = "audioUri" ∧ k7 = "favorite" ∧ k8 = "archived" then
      match allSome (tags.map strOfJson), optOfJson image, optOfJson audioUri with
      | some ts, some im, some au =>
        some { id := id, title := title, text := text, tags := ts, image := im,
               audioUri := au, favorite := favorite, archived := archived }
      | _, _, _ => none
    else none
  | _ => none

/-- A parsed value read back as a list of notes; `none` when the value is not
an array of note objects of the schema. -/
def notesOfJson : Json → Option (List Note)
  | Json.arr xs => allSome (xs.map noteOfJson)
  | _ => none

/-! ## The handlers of `App` -/

/-- The initial `useState` values of a session that finds `stored` under the
storage key. -/
def freshSession (stored : Option String) : App :=
  { notes := [], title := "", text := "", tags := "", modalVisible := false,
    editNote := none, searchQuery := "", filter := "all", image := none,
    audioUri := none, stored := stored }

/-- `saveNotes(newNotes)`: the list is serialised and written under the key,
then becomes the in-memory list.  When the write is rejected (`ok = false`) the
error is logged and nothing changes. -/
def saveNotes (ok : Bool) (newNotes : List Note) (s : App) : App :=
  if ok then
    { s with stored := some (jsonStringify (notesToJson newNotes)), notes := newNotes }
  else s

/-- `loadNotes()`: the stored text, when present and non-empty, is parsed and
becomes the in-memory list.  A rejected read (`ok = false`) and a `SyntaxError`
are logged and change nothing.  The result is `none` when the parsed value is
not a note list of the schema, which the state record cannot hold. -/
def loadNotes (ok : Bool) (s : App) : Option App :=
  if ok then
    match s.stored with
    | none => some s
    | some storedNotes =>
      if strTruthy storedNotes then
        match jsonParse storedNotes with
        | none => some s
        | some v =>
          match notesOfJson v with
          | some l => some { s with notes := l }
          | none => none
      else some s
  else some s

/-- The tags of the compose form: `tags.split(',').map(t => t.trim())`. -/
def parseTags (tags : String) : List String :=
  (jsSplitComma tags).map jsTrim

/-- The object `noteData` built from the compose form. -/
structure NoteData where
  title : String
  text : String
  tags : List String
  image : Option String
  audioUri : Option String
  deriving DecidableEq, Repr

/-- The `noteData` of the current form. -/
def noteData (s : App) : NoteData :=
  { title := s.title, text := s.text, tags := parseTags s.tags, image := s.image,
    audioUri := s.audioUri }

/-- `{ ...note, ...noteData }`. -/
def spread (note : Note) (d : NoteData) : Note :=
  { note with title := d.title, text := d.text, tags := d.tags, image := d.image,
              audioUri := d.audioUri }

/-- `resetNoteInputs()`. -/
def resetNoteInputs (s : App) : App :=
  { s with title := "", text := "", tags := "", image := none, audioUri := none,
           modalVisible := false }

/-- `addOrUpdateNote()`; `now` is what `Date.now()` returns when it is read and
`ok` whether the storage write succeeds. -/
def addOrUpdateNote (ok : Bool) (now : Nat) (s : App) : App :=
  let d := noteData s
  let s1 : App :=
    match s.editNote with
    | some editNote =>
      let updatedNotes := s.notes.map fun note =>
        if note.id = editNote.id then spread note d else note
      { saveNotes ok updatedNotes s with editNote := none }
    | none =>
      if strTruthy (jsTrim s.title) || strTruthy (jsTrim s.text) || optTruthy s.image ||
          optTruthy s.audioUri then
        let newNote : Note :=
          { id := toString now, title := d.title, text := d.text, tags := d.tags,
            image := d.image, audioUri := d.audioUri, favorite := false, archived := false }
        saveNotes ok (newNote :: s.notes) s
      else s
  resetNoteInputs s1

/-- `deleteNote(id)`; `confirmed` is whether the user presses "Delete" in the
alert. -/
def deleteNote (confirmed ok : Bool) (id : String) (s : App) : App :=
  if confirmed then
    saveNotes ok (s.notes.filter fun note => note.id != id) s
  else s

/-- `toggleArchive(id)`. -/
def toggleArchive (ok : Bool) (id : String) (s : App) : App :=
  saveNotes ok
    (s.notes.map fun note => if note.id = id then { note with archived := !note.archived } else note)
    s

/-- `toggleFavorite(id)`. -/
def toggleFavorite (ok : Bool) (id : String) (s : App) : App :=
  saveNotes ok
    (s.notes.map fun note => if note.id = id then { note with favorite := !note.favorite } else note)
    s

/-- `openEditModal(note)`. -/
def openEditModal (note : Note) (s : App) : App :=
  { s with editNote := some note, title := note.title, text := note.text,
           tags := jsJoinCommaSpace note.tags, image := orNull note.image,
           audioUri := orNull note.audioUri, modalVisible := true }

/-- The list `filteredNotes` computed on each render. -/
def filteredNotes (s : App) : List Note :=
  s.notes.filter fun note =>
    (if s.filter = "favorite" then note.favorite
     else if s.filter = "archived" then note.archived
     else !note.archived) &&
    (jsIncludes note.title s.searchQuery || jsIncludes note.text s.searchQuery)

/-! ## Sessions as sequences of user events -/

/-- What the user can do to the store: fill the compose form, open a note for
edit, press the save button, delete, toggle a flag. -/
inductive Event where
  | fillForm (title text tags : String) (image audioUri : Option String)
  | openEdit (note : Note)
  | save (ok : Bool) (now : Nat)
  | delete (confirmed ok : Bool) (id : String)
  | toggleFavorite (ok : Bool) (id : String)
  | toggleArchive (ok : Bool) (id : String)

/-- One event applied to the state. -/
def step (s : App) : Event → App
  | Event.fillForm title text tags image audioUri =>
    { s with title := title, text := text, tags := tags, image := image,
             audioUri := audioUri }
  | Event.openEdit note => openEditModal note s
  | Event.save ok now => addOrUpdateNote ok now s
  | Event.delete confirmed ok id => deleteNote confirmed ok id s
  | Event.toggleFavorite ok id => toggleFavorite ok id s
  | Event.toggleArchive ok id => toggleArchive ok id s

/-- A sequence of events applied in order. -/
def run (s : App) : List Event → App
  | [] => s
  | e :: es => run (step s e) es

/-- Whether pressing save in state `s` creates a note, that is, reads the
clock: no edit target and some content. -/
def createsNote (s : App) : Bool :=
  s.editNote.isNone &&
    (strTruthy (jsTrim s.title) || strTruthy (jsTrim s.text) || optTruthy s.image ||
      optTruthy s.audioUri)

/-- The clock readings `Date.now()` returns along a sequence of events, in
order: it is read once by each save that creates a note. -/
def creationClocks (s : App) : List Event → List Nat
  | [] => []
  | Event.save ok now :: es =>
    if createsNote s then now :: creationClocks (step s (Event.save ok now)) es
    else creationClocks (step s (Event.save ok now)) es
  | e :: es => creationClocks (step s e) es

/-- A note with the given id, title and flags and nothing else. -/
def sampleNote (id title : String) (favorite archived : Bool) : Note :=
  { id := id, title := title, text := "", tags := [""], image := none, audioUri := none,
    favorite := favorite, archived := archived }

/-- The number a sequence of decimal digit characters writes. -/
def digitsValue (cs : List Char) : Nat :=
  cs.foldl (fun a c => 10 * a + (c.toNat - 48)) 0

/-- A character that is not JSON white space and not a closing bracket: what
the text of a value starts with. -/
def startsValue (c : Char) : Prop :=
  c ≠ ' ' ∧ c ≠ '\t' ∧ c ≠ '\n' ∧ c ≠ '\r' ∧ c ≠ ']' ∧ c ≠ '}'

/-- With `fuel`, the parser reads the text of `v` back as `v`, whatever
follows it. -/
def Reads (fuel : Nat) (v : Json) : Prop :=
  (∀ rest, parseValue fuel (stringifyJson v ++ rest) = some (v, rest)) ∧
  ∃ c t, stringifyJson v = c :: t ∧ startsValue c

/-- Two stored notes: `A` is a favourite, `B` is archived. -/
def sampleNotes : List Note :=
  [sampleNote "1" "A" true false, sampleNote "2" "B" false true]

/-- A session holding `sampleNotes`, the form untouched. -/
def sampleApp : App := { freshSession none with notes := sampleNotes }

/-- The compose form filled with a title and a tags line, on an empty store. -/
def composeState : App := { freshSession none with title := "Milk", tags := "a, b ,,c" }

/-- Note `A` of `sampleApp` opened for edit and its title retyped. -/
def editState : App :=
  { openEditModal (sampleNote "1" "A" true false) sampleApp with title := "New" }

/-- A note with tags, a photo and no voice clip. -/
def taggedNote : Note :=
  { id := "3", title := "T", text := "body", tags := ["work", "to do", ""],
    image := some "file:///p.jpg", audioUri := none, favorite := false, archived := false }

/-- A session holding `taggedNote` and note `A`. -/
def taggedApp : App :=
  { freshSession none with notes := [taggedNote, sampleNote "1" "A" true false] }

/-- A session of two creations at different clock readings, a toggle and a
confirmed delete. -/
def sampleEvents : List Event :=
  [Event.fillForm "a" "" "" none none, Event.save true 5,
   Event.fillForm "b" "" "" none none, Event.save true 6,
   Event.toggleFavorite true "5", Event.delete true true "6"]

/-! ## Properties of the handlers -/

/-! ### Truthiness and `trim` -/

theorem strTruthy_iff (s : String) : strTruthy s = true ↔ s.data ≠ [] := by
  cases s with
  | mk d =>
    simp only [strTruthy, bne_iff_ne, ne_eq]
    constructor
    · intro h hd
      apply h
      subst hd
      rfl
    · intro h hs
      apply h
      exact congrArg String.data hs

theorem dropWhile_head_not {p : Char → Bool} (l : List Char) (x : Char) (xs : List Char)
    (h : l.dropWhile p = x :: xs) : p x = false := by
  induction l with
  | nil => simp at h
  | cons a t ih =>
    rw [List.dropWhile_cons] at h
    split at h
    · exact ih h
    · rename_i hp
      simp only [List.cons.injEq] at h
      rw [← h.1]
      simpa using hp

theorem trimChars_eq_nil_iff (cs : List Char) :
    trimChars cs = [] ↔ ∀ c ∈ cs, isJsWhiteSpace c = true := by
  unfold trimChars
  rw [List.reverse_eq_nil_iff, List.dropWhile_eq_nil_iff]
  constructor
  · intro h
    have h2 : cs.dropWhile isJsWhiteSpace = [] := by
      cases hd : cs.dropWhile isJsWhiteSpace with
      | nil => rfl
      | cons x xs =>
        have h1 := dropWhile_head_not cs x xs hd
        have h3 := h x (by simp [hd])
        rw [h1] at h3
        exact absurd h3 (by decide)
    exact List.dropWhile_eq_nil_iff.mp h2
  · intro h
    have h2 : cs.dropWhile isJsWhiteSpace = [] := List.dropWhile_eq_nil_iff.mpr h
    simp [h2]

theorem truthy_trim_iff (s : String) :
    strTruthy (jsTrim s) = true ↔ ∃ c ∈ s.data, isJsWhiteSpace c = false := by
  rw [strTruthy_iff]
  show trimChars s.data ≠ [] ↔ _
  rw [Ne, trimChars_eq_nil_iff]
  push_neg
  simp

theorem optTruthy_iff (x : Option String) :
    optTruthy x = true ↔ ∃ u, x = some u ∧ u ≠ "" := by
  cases x with
  | none => simp [optTruthy]
  | some u => simp [optTruthy, strTruthy]

/-- Claim C2: with an edit target, a successful `addOrUpdateNote` saves a list
of the same length in which, position by position, a note whose id is the
target's id carries the form's title, text, parsed tags, image and audioUri and
keeps its id, favorite and archived, and a note with another id is unchanged.
Nothing is assumed about the form: the edit applies also when every content
field is empty. -/
theorem addOrUpdateNote_edit_frame (s : App) (now : Nat) (target : Note)
    (htarget : s.editNote = some target) :
    (addOrUpdateNote true now s).notes.length = s.notes.length ∧
    (addOrUpdateNote true now s).stored =
      some (jsonStringify (notesToJson (addOrUpdateNote true now s).notes)) ∧
    ∀ (i : Nat) (n : Note), s.notes[i]? = some n →
      ∃ m, (addOrUpdateNote true now s).notes[i]? = some m ∧
        (n.id = target.id →
          m.title = s.title ∧ m.text = s.text ∧ m.tags = parseTags s.tags ∧
          m.image = s.image ∧ m.audioUri = s.audioUri ∧
          m.id = n.id ∧ m.favorite = n.favorite ∧ m.archived = n.archived) ∧
        (n.id ≠ target.id → m = n) := by
  refine ⟨by simp [addOrUpdateNote, htarget, saveNotes, resetNoteInputs],
    by simp [addOrUpdateNote, htarget, saveNotes, resetNoteInputs], ?_⟩
  intro i n hn
  by_cases h : n.id = target.id <;>
    simp [addOrUpdateNote, htarget, saveNotes, resetNoteInputs, List.getElem?_map, hn, h,
      spread, noteData]

/-- Claim C6: without an edit target, with title and text empty and image and
audioUri absent, `addOrUpdateNote` saves nothing, whatever the tags input and
the note list are: the in-memory list (so also its length) and the stored text
are unchanged. -/
theorem addOrUpdateNote_empty_noop (s : App) (ok : Bool) (now : Nat)
    (hedit : s.editNote = none) (htitle : s.title = "") (htext : s.text = "")
    (himage : s.image = none) (haudio : s.audioUri = none) :
    (addOrUpdateNote ok now s).notes = s.notes ∧
    (addOrUpdateNote ok now s).notes.length = s.notes.length ∧
    (addOrUpdateNote ok now s).stored = s.stored := by
  have h1 : strTruthy (jsTrim "") = false := by decide
  simp [addOrUpdateNote, hedit, htitle, htext, himage, haudio, h1, optTruthy, resetNoteInputs]

/-- Claim C1 fails as stated: a title of one blank is a non-empty title, yet
`addOrUpdateNote` prepends no note, because the guard tests `title.trim()`. -/
theorem addOrUpdateNote_create_blank_title :
    ¬ ∀ (s : App) (now : Nat), s.editNote = none →
      (s.title ≠ "" ∨ s.text ≠ "" ∨ (∃ u, s.image = some u ∧ u ≠ "") ∨
        (∃ u, s.audioUri = some u ∧ u ≠ "")) →
      ∃ n, (addOrUpdateNote true now s).notes = n :: s.notes := by
  intro h
  obtain ⟨n, hn⟩ := h { freshSession none with title := " " } 0 rfl (Or.inl (by decide))
  revert hn
  have h1 : strTruthy (jsTrim " ") = false := by decide
  have h2 : strTruthy (jsTrim "") = false := by decide
  simp [addOrUpdateNote, freshSession, h1, h2, optTruthy, resetNoteInputs]

/-- Claim C1, amended: without an edit target, when the title or the text has a
character that is not white space, or image or audioUri is a non-empty string,
a successful `addOrUpdateNote` saves the old list with exactly one note
prepended; the new note has the decimal clock reading as id, the form's title,
text, parsed tags, image and audioUri, and `favorite = false`,
`archived = false`. -/
theorem addOrUpdateNote_create (s : App) (now : Nat) (hedit : s.editNote = none)
    (hcontent : (∃ c ∈ s.title.data, isJsWhiteSpace c = false) ∨
      (∃ c ∈ s.text.data, isJsWhiteSpace c = false) ∨
      (∃ u, s.image = some u ∧ u ≠ "") ∨ (∃ u, s.audioUri = some u ∧ u ≠ "")) :
    (addOrUpdateNote true now s).notes =
      { id := toString now, title := s.title, text := s.text, tags := parseTags s.tags,
        image := s.image, audioUri := s.audioUri, favorite := false, archived := false } ::
        s.notes ∧
    (addOrUpdateNote true now s).stored =
      some (jsonStringify (notesToJson (addOrUpdateNote true now s).notes)) := by
  have hc : (strTruthy (jsTrim s.title) || strTruthy (jsTrim s.text) || optTruthy s.image ||
      optTruthy s.audioUri) = true := by
    simp only [Bool.or_eq_true, truthy_trim_iff, optTruthy_iff]
    rcases hcontent with h | h | h | h
    · exact Or.inl (Or.inl (Or.inl h))
    · exact Or.inl (Or.inl (Or.inr h))
    · exact Or.inl (Or.inr h)
    · exact Or.inr h
  simp [addOrUpdateNote, hedit, hc, saveNotes, resetNoteInputs, noteData]

theorem map_update_of_nodup (l : List Note) (n : Note)
    (hids : (l.map Note.id).Nodup) (hn : n ∈ l) :
    ∃ before after, l = before ++ n :: after ∧
      ∀ f : Note → Note,
        l.map (fun m => if m.id = n.id then f m else m) = before ++ f n :: after := by
  obtain ⟨before, after, hsplit⟩ := List.append_of_mem hn
  refine ⟨before, after, hsplit, ?_⟩
  intro f
  rw [hsplit, List.map_append, List.map_cons] at hids
  have hnd := List.nodup_append.mp hids
  have hb : ∀ m ∈ before, m.id ≠ n.id := by
    intro m hm hmid
    exact hnd.2.2 (List.mem_map_of_mem Note.id hm) (by simp [hmid])
  have ha : ∀ m ∈ after, m.id ≠ n.id := by
    intro m hm hmid
    have := (List.nodup_cons.mp hnd.2.1).1
    exact this (by rw [← hmid]; exact List.mem_map_of_mem Note.id hm)
  have e1 : before.map (fun m => if m.id = n.id then f m else m) = before :=
    (List.map_congr_left (fun m hm => by simp [hb m hm])).trans (List.map_id before)
  have e2 : after.map (fun m => if m.id = n.id then f m else m) = after :=
    (List.map_congr_left (fun m hm => by simp [ha m hm])).trans (List.map_id after)
  rw [hsplit, List.map_append, List.map_cons, e1, e2]
  simp

/-- Claim C4: a successful `toggleFavorite(id)` negates `favorite`, and a
successful `toggleArchive(id)` negates `archived`, on the notes whose id is
`id`, leaving their other fields, every note with another id, and the length
and order of the list unchanged.  When the ids of the list are pairwise
distinct, the saved list is the old one with the one note of that id replaced
by its toggled copy. -/
theorem toggle_flags_frame (s : App) (id : String) :
    (toggleFavorite true id s).notes.length = s.notes.length ∧
    (toggleArchive true id s).notes.length = s.notes.length ∧
    (toggleFavorite true id s).stored =
      some (jsonStringify (notesToJson (toggleFavorite true id s).notes)) ∧
    (toggleArchive true id s).stored =
      some (jsonStringify (notesToJson (toggleArchive true id s).notes)) ∧
    (∀ (i : Nat) (n : Note), s.notes[i]? = some n →
      (∃ m, (toggleFavorite true id s).notes[i]? = some m ∧
        (n.id = id → m.favorite = !n.favorite ∧ m.archived = n.archived ∧ m.id = n.id ∧
          m.title = n.title ∧ m.text = n.text ∧ m.tags = n.tags ∧ m.image = n.image ∧
          m.audioUri = n.audioUri) ∧
        (n.id ≠ id → m = n)) ∧
      (∃ m, (toggleArchive true id s).notes[i]? = some m ∧
        (n.id = id → m.archived = !n.archived ∧ m.favorite = n.favorite ∧ m.id = n.id ∧
          m.title = n.title ∧ m.text = n.text ∧ m.tags = n.tags ∧ m.image = n.image ∧
          m.audioUri = n.audioUri) ∧
        (n.id ≠ id → m = n))) ∧
    ((s.notes.map Note.id).Nodup → ∀ n ∈ s.notes, n.id = id →
      ∃ before after, s.notes = before ++ n :: after ∧
        (toggleFavorite true id s).notes =
          before ++ { n with favorite := !n.favorite } :: after ∧
        (toggleArchive true id s).notes =
          before ++ { n with archived := !n.archived } :: after) := by
  refine ⟨by simp [toggleFavorite, saveNotes], by simp [toggleArchive, saveNotes],
    by simp [toggleFavorite, saveNotes], by simp [toggleArchive, saveNotes], ?_, ?_⟩
  · intro i n hn
    constructor
    · by_cases h : n.id = id <;> simp [toggleFavorite, saveNotes, List.getElem?_map, hn, h]
    · by_cases h : n.id = id <;> simp [toggleArchive, saveNotes, List.getElem?_map, hn, h]
  · intro hids n hn hid
    subst hid
    obtain ⟨before, after, hsplit, hmap⟩ := map_update_of_nodup s.notes n hids hn
    refine ⟨before, after, hsplit, ?_, ?_⟩
    · simpa [toggleFavorite, saveNotes] using
        hmap (fun m => { m with favorite := !m.favorite })
    · simpa [toggleArchive, saveNotes] using
        hmap (fun m => { m with archived := !m.archived })

/-! ### `includes` and the filtered list -/

theorem includesChars_iff (q s : List Char) :
    includesChars q s = true ↔ ∃ a b, s = a ++ q ++ b := by
  induction s with
  | nil =>
    simp only [includesChars, List.isEmpty_iff]
    constructor
    · intro h
      exact ⟨[], [], by simp [h]⟩
    · rintro ⟨a, b, h⟩
      have h2 := congrArg List.length h
      simp only [List.length_nil, List.length_append] at h2
      exact List.length_eq_zero.mp (by omega)
  | cons c cs ih =>
    simp only [includesChars, Bool.or_eq_true, List.isPrefixOf_iff_prefix, ih]
    constructor
    · rintro (⟨t, ht⟩ | ⟨a, b, hab⟩)
      · exact ⟨[], t, by simp [ht]⟩
      · exact ⟨c :: a, b, by simp [hab]⟩
    · rintro ⟨a, b, hab⟩
      cases a with
      | nil => exact Or.inl ⟨b, by simpa using hab.symm⟩
      | cons x a =>
        simp only [List.cons_append, List.cons.injEq] at hab
        exact Or.inr ⟨a, b, hab.2⟩

theorem jsIncludes_iff (s q : String) :
    jsIncludes s q = true ↔ ∃ a b : String, s = a ++ q ++ b := by
  unfold jsIncludes
  rw [includesChars_iff]
  constructor
  · rintro ⟨a, b, h⟩
    refine ⟨⟨a⟩, ⟨b⟩, ?_⟩
    apply String.ext
    simpa using h
  · rintro ⟨a, b, h⟩
    exact ⟨a.data, b.data, by rw [h]; simp⟩

/-- Claim C5: for a filter mode among "all", "favorite", "archived",
`filteredNotes` is a sublist of the note list (order kept) that holds exactly
the notes matching the mode (all: not archived; favorite: favorite; archived:
archived) whose title or text contains the query as a substring, character for
character, each as often as the note list holds it.  It is a value computed
from the state, which it leaves as it is.  For the list `[A, B]` of the spec
and the empty query, mode all gives `[A]`, archived `[B]`, favorite `[A]`. -/
theorem filteredNotes_spec (s : App) :
    (s.filter = "all" ∨ s.filter = "favorite" ∨ s.filter = "archived" →
      List.Sublist (filteredNotes s) s.notes ∧
      ∀ n : Note,
        (n ∈ filteredNotes s →
          ((s.filter = "all" ∧ n.archived = false) ∨ (s.filter = "favorite" ∧ n.favorite = true) ∨
            (s.filter = "archived" ∧ n.archived = true)) ∧
          ((∃ a b : String, n.title = a ++ s.searchQuery ++ b) ∨
            (∃ a b : String, n.text = a ++ s.searchQuery ++ b))) ∧
        (((s.filter = "all" ∧ n.archived = false) ∨ (s.filter = "favorite" ∧ n.favorite = true) ∨
            (s.filter = "archived" ∧ n.archived = true)) →
          ((∃ a b : String, n.title = a ++ s.searchQuery ++ b) ∨
            (∃ a b : String, n.text = a ++ s.searchQuery ++ b)) →
          (filteredNotes s).count n = s.notes.count n)) ∧
    (∀ A B : Note, A.archived = false → A.favorite = true → A.title = "A" →
      B.archived = true → B.favorite = false → B.title = "B" →
      s.notes = [A, B] → s.searchQuery = "" →
      (s.filter = "all" → filteredNotes s = [A]) ∧
      (s.filter = "archived" → filteredNotes s = [B]) ∧
      (s.filter = "favorite" → filteredNotes s = [A])) := by
  constructor
  · intro hmode
    refine ⟨List.filter_sublist _, ?_⟩
    intro n
    have hkey : ((if s.filter = "favorite" then n.favorite
          else if s.filter = "archived" then n.archived else !n.archived) &&
          (jsIncludes n.title s.searchQuery || jsIncludes n.text s.searchQuery)) = true ↔
        (((s.filter = "all" ∧ n.archived = false) ∨ (s.filter = "favorite" ∧ n.favorite = true) ∨
            (s.filter = "archived" ∧ n.archived = true)) ∧
          ((∃ a b : String, n.title = a ++ s.searchQuery ++ b) ∨
            (∃ a b : String, n.text = a ++ s.searchQuery ++ b))) := by
      rw [Bool.and_eq_true, Bool.or_eq_true, jsIncludes_iff, jsIncludes_iff]
      apply and_congr_left
      intro _
      rcases hmode with h | h | h <;> simp [h]
    constructor
    · intro hn
      have := (List.mem_filter.mp hn).2
      exact hkey.mp this
    · intro h1 h2
      exact List.count_filter (hkey.mpr ⟨h1, h2⟩)
  · intro A B hA1 hA2 hA3 hB1 hB2 hB3 hnotes hq
    have hinc : ∀ t : String, jsIncludes t "" = true := fun t =>
      (jsIncludes_iff t "").mpr ⟨"", t, by simp⟩
    refine ⟨?_, ?_, ?_⟩ <;> intro hf <;>
      simp [filteredNotes, hnotes, hq, hf, hinc, hA1, hA2, hB1, hB2]

/-- Claim C3 fails as stated: when two notes have the id, the confirmed
`deleteNote(id)` removes both, so the saved list is two shorter. -/
theorem deleteNote_repeated_id :
    ¬ ∀ (s : App) (id : String), (∃ n ∈ s.notes, n.id = id) →
      (deleteNote true true id s).notes.length + 1 = s.notes.length := by
  intro h
  have h1 := h { freshSession none with
      notes := [sampleNote "1" "a" false false, sampleNote "1" "b" false false] } "1"
    ⟨sampleNote "1" "a" false false, by simp, rfl⟩
  revert h1
  simp [deleteNote, saveNotes, freshSession, sampleNote]

/-- Claim C3, amended: for a note list with pairwise distinct ids, the confirmed
and successful `deleteNote(id)` saves, when some note has that id, the old list
without that one note (one shorter, no note with that id, the others unchanged
and in order), and when no note has that id, the old list. -/
theorem deleteNote_spec (s : App) (id : String)
    (hids : (s.notes.map Note.id).Nodup) :
    ((∃ n ∈ s.notes, n.id = id) →
      (deleteNote true true id s).notes.length + 1 = s.notes.length ∧
      (∀ m ∈ (deleteNote true true id s).notes, m.id ≠ id) ∧
      ∃ (before after : List Note) (n : Note), n.id = id ∧ s.notes = before ++ n :: after ∧
        (deleteNote true true id s).notes = before ++ after) ∧
    ((∀ n ∈ s.notes, n.id ≠ id) → (deleteNote true true id s).notes = s.notes) ∧
    (deleteNote true true id s).stored =
      some (jsonStringify (notesToJson (deleteNote true true id s).notes)) := by
  have hnotes : (deleteNote true true id s).notes = s.notes.filter fun note => note.id != id := by
    simp [deleteNote, saveNotes]
  refine ⟨?_, ?_, by simp [deleteNote, saveNotes]⟩
  · rintro ⟨n, hn, hid⟩
    obtain ⟨before, after, hsplit⟩ := List.append_of_mem hn
    rw [hsplit, List.map_append, List.map_cons] at hids
    have hb : ∀ m ∈ before, m.id ≠ id := by
      intro m hm hmid
      have := List.nodup_append.mp hids
      exact this.2.2 (List.mem_map_of_mem Note.id hm) (by simp [hmid, hid])
    have ha : ∀ m ∈ after, m.id ≠ id := by
      intro m hm hmid
      have := (List.nodup_append.mp hids).2.1
      rw [List.nodup_cons] at this
      exact this.1 (by rw [hid, ← hmid]; exact List.mem_map_of_mem Note.id hm)
    have hres : (deleteNote true true id s).notes = before ++ after := by
      rw [hnotes, hsplit, List.filter_append, List.filter_cons]
      have e1 : before.filter (fun note => note.id != id) = before :=
        List.filter_eq_self.mpr (fun m hm => by simpa using hb m hm)
      have e2 : after.filter (fun note => note.id != id) = after :=
        List.filter_eq_self.mpr (fun m hm => by simpa using ha m hm)
      simp [e1, e2, hid]
    refine ⟨?_, ?_, before, after, n, hid, hsplit, hres⟩
    · rw [hres, hsplit]
      simp
      omega
    · intro m hm
      rw [hres] at hm
      rcases List.mem_append.mp hm with h | h
      · exact hb m h
      · exact ha m h
  · intro hall
    rw [hnotes]
    exact List.filter_eq_self.mpr (fun m hm => by simpa using hall m hm)

/-! ### `split`, `trim` and the tags of a note -/

theorem splitChars_ne_nil (sep : Char) (cs : List Char) : splitChars sep cs ≠ [] := by
  cases cs with
  | nil => simp [splitChars]
  | cons c cs =>
    simp only [splitChars]
    split
    · simp
    · split <;> simp

theorem splitChars_length (sep : Char) (cs : List Char) :
    (splitChars sep cs).length = cs.count sep + 1 := by
  induction cs with
  | nil => simp [splitChars]
  | cons c cs ih =>
    simp only [splitChars]
    by_cases h : c = sep
    · subst h
      simp [ih]
    · have hne := splitChars_ne_nil sep cs
      have hc : (c == sep) = false := by simpa using h
      cases hs : splitChars sep cs with
      | nil => exact absurd hs hne
      | cons p ps =>
        rw [hs] at ih
        simp only [h, if_false, List.length_cons, List.count_cons, hc] at ih ⊢
        simpa using ih

theorem intercalate_splitChars (sep : Char) (cs : List Char) :
    List.intercalate [sep] (splitChars sep cs) = cs := by
  induction cs with
  | nil => simp [splitChars, List.intercalate]
  | cons c cs ih =>
    simp only [splitChars]
    by_cases h : c = sep
    · subst h
      simp only [if_true]
      cases hs : splitChars c cs with
      | nil => exact absurd hs (splitChars_ne_nil c cs)
      | cons p ps =>
        rw [hs] at ih
        simp only [List.intercalate, List.intersperse, List.flatten] at ih ⊢
        simp [ih]
    · simp only [h, if_false]
      cases hs : splitChars sep cs with
      | nil => exact absurd hs (splitChars_ne_nil sep cs)
      | cons p ps =>
        rw [hs] at ih
        cases ps with
        | nil =>
          simp only [List.intercalate, List.intersperse, List.flatten] at ih ⊢
          simpa using ih
        | cons q qs =>
          simp only [List.intercalate, List.intersperse, List.flatten] at ih ⊢
          simpa using ih

theorem splitChars_no_sep (sep : Char) (cs : List Char) :
    ∀ p ∈ splitChars sep cs, sep ∉ p := by
  induction cs with
  | nil => simp [splitChars]
  | cons c cs ih =>
    simp only [splitChars]
    by_cases h : c = sep
    · subst h
      simp only [if_true, List.mem_cons]
      rintro p (rfl | hp)
      · simp
      · exact ih p hp
    · simp only [h, if_false]
      cases hs : splitChars sep cs with
      | nil => exact absurd hs (splitChars_ne_nil sep cs)
      | cons p ps =>
        rw [hs] at ih
        simp only [List.mem_cons]
        rintro q (rfl | hq)
        · simp only [List.mem_cons, not_or]
          exact ⟨fun e => h e.symm, ih p (by simp)⟩
        · exact ih q (by simp [hq])

theorem trimChars_spec (p : List Char) :
    ∃ pre post : List Char, p = pre ++ trimChars p ++ post ∧
      (∀ c ∈ pre, isJsWhiteSpace c = true) ∧ (∀ c ∈ post, isJsWhiteSpace c = true) ∧
      (∀ c, (trimChars p).head? = some c → isJsWhiteSpace c = false) ∧
      (∀ c, (trimChars p).getLast? = some c → isJsWhiteSpace c = false) := by
  have h1 : p.takeWhile isJsWhiteSpace ++ p.dropWhile isJsWhiteSpace = p :=
    List.takeWhile_append_dropWhile _ _
  have h2 : (p.dropWhile isJsWhiteSpace).reverse.takeWhile isJsWhiteSpace ++
      (p.dropWhile isJsWhiteSpace).reverse.dropWhile isJsWhiteSpace =
      (p.dropWhile isJsWhiteSpace).reverse := List.takeWhile_append_dropWhile _ _
  have h3 : p.dropWhile isJsWhiteSpace =
      trimChars p ++ ((p.dropWhile isJsWhiteSpace).reverse.takeWhile isJsWhiteSpace).reverse := by
    have := congrArg List.reverse h2
    rw [List.reverse_append, List.reverse_reverse] at this
    exact this.symm
  have hlast : ∀ c, (trimChars p).getLast? = some c → isJsWhiteSpace c = false := by
    intro c hc
    unfold trimChars at hc
    rw [List.getLast?_reverse] at hc
    cases hd : (p.dropWhile isJsWhiteSpace).reverse.dropWhile isJsWhiteSpace with
    | nil => rw [hd] at hc; simp at hc
    | cons x xs =>
      rw [hd] at hc
      simp only [List.head?_cons, Option.some.injEq] at hc
      rw [← hc]
      exact dropWhile_head_not _ x xs hd
  refine ⟨p.takeWhile isJsWhiteSpace,
    ((p.dropWhile isJsWhiteSpace).reverse.takeWhile isJsWhiteSpace).reverse, ?_, ?_, ?_, ?_, hlast⟩
  · rw [List.append_assoc, ← h3, h1]
  · intro c hc
    exact List.mem_takeWhile_imp hc
  · intro c hc
    exact List.mem_takeWhile_imp (List.mem_reverse.mp hc)
  · intro c hc
    cases ht : trimChars p with
    | nil => rw [ht] at hc; simp at hc
    | cons x xs =>
      rw [ht] at hc h3
      simp only [List.head?_cons, Option.some.injEq] at hc
      rw [← hc]
      exact dropWhile_head_not p x _ h3

/-- Claim C9: the tags of a tags input are the pieces of the input between the
commas, in order (joining the pieces with commas gives the input back, and no
piece has a comma), each with the white space at its two ends removed, empty
pieces kept; so there is one more tag than there are commas, and `"a, b ,,c"`
gives `["a", "b", "", "c"]`.  These are the tags of the note that
`addOrUpdateNote` creates or edits. -/
theorem parseTags_spec (tags : String) :
    (parseTags tags).length = tags.data.count ',' + 1 ∧
    (∃ pieces : List (List Char),
      List.intercalate [','] pieces = tags.data ∧
      (∀ p ∈ pieces, ',' ∉ p) ∧
      parseTags tags = pieces.map (fun p => String.mk (trimChars p)) ∧
      ∀ p ∈ pieces, ∃ pre post : List Char, p = pre ++ trimChars p ++ post ∧
        (∀ c ∈ pre, isJsWhiteSpace c = true) ∧ (∀ c ∈ post, isJsWhiteSpace c = true) ∧
        (∀ c, (trimChars p).head? = some c → isJsWhiteSpace c = false) ∧
        (∀ c, (trimChars p).getLast? = some c → isJsWhiteSpace c = false)) ∧
    parseTags "a, b ,,c" = ["a", "b", "", "c"] ∧
    (∀ (s : App) (now : Nat), s.tags = tags → createsNote s = true →
      (addOrUpdateNote true now s).notes.head?.map Note.tags = some (parseTags tags)) ∧
    (∀ (s : App) (now : Nat) (target n : Note), s.tags = tags → s.editNote = some target →
      n ∈ (addOrUpdateNote true now s).notes → n.id = target.id → n.tags = parseTags tags) := by
  refine ⟨?_, ⟨splitChars ',' tags.data, intercalate_splitChars _ _, splitChars_no_sep _ _, ?_,
    fun p _ => trimChars_spec p⟩, by decide, ?_, ?_⟩
  · simp [parseTags, jsSplitComma, splitChars_length]
  · simp [parseTags, jsSplitComma, jsTrim]
  · intro s now ht hc
    simp only [createsNote, Bool.and_eq_true, Option.isNone_iff_eq_none] at hc
    simp [addOrUpdateNote, hc.1, hc.2, saveNotes, resetNoteInputs, noteData, ht]
  · intro s now target n ht he hn hid
    simp only [addOrUpdateNote, he, saveNotes, resetNoteInputs, if_true, List.mem_map] at hn
    obtain ⟨m, hm, hmn⟩ := hn
    by_cases h : m.id = target.id
    · simp only [h, if_true] at hmn
      rw [← hmn]
      simp [spread, noteData, ht]
    · simp only [h, if_false] at hmn
      rw [← hmn] at hid
      exact absurd hid h

/-! ### Joining the tags and splitting them again -/

theorem splitChars_of_not_mem (sep : Char) (p : List Char) (h : sep ∉ p) :
    splitChars sep p = [p] := by
  induction p with
  | nil => rfl
  | cons c cs ih =>
    simp only [List.mem_cons, not_or] at h
    have hc : ¬ c = sep := fun e => h.1 e.symm
    simp [splitChars, hc, ih h.2]

theorem splitChars_append_sep (sep : Char) (p rest : List Char) (h : sep ∉ p) :
    splitChars sep (p ++ sep :: rest) = p :: splitChars sep rest := by
  induction p with
  | nil => simp [splitChars]
  | cons c cs ih =>
    simp only [List.mem_cons, not_or] at h
    have hc : ¬ c = sep := fun e => h.1 e.symm
    simp [splitChars, hc, ih h.2]

theorem splitChars_join (t : List Char) (ts : List (List Char))
    (h : ∀ x ∈ t :: ts, ',' ∉ x) :
    splitChars ',' (List.intercalate [',', ' '] (t :: ts)) = t :: ts.map (List.cons ' ') := by
  induction ts generalizing t with
  | nil =>
    simp only [List.intercalate, List.intersperse, List.flatten, List.append_nil, List.map_nil]
    exact splitChars_of_not_mem _ _ (h t (by simp))
  | cons u us ih =>
    have hu := ih u (fun x hx => h x (by simp only [List.mem_cons] at hx ⊢; exact Or.inr hx))
    have e : List.intercalate [',', ' '] (t :: u :: us) =
        t ++ ',' :: (' ' :: List.intercalate [',', ' '] (u :: us)) := by
      simp [List.intercalate, List.intersperse, List.flatten]
    rw [e, splitChars_append_sep _ _ _ (h t (by simp))]
    have hsp : ¬ (' ' : Char) = ',' := by decide
    simp [splitChars, hsp, hu]

theorem dropWhile_of_head (p : Char → Bool) (t : List Char)
    (h : ∀ c, t.head? = some c → p c = false) : t.dropWhile p = t := by
  cases t with
  | nil => rfl
  | cons c cs => simp [List.dropWhile_cons, h c rfl]

theorem trimChars_clean (t : List Char)
    (hh : ∀ c, t.head? = some c → isJsWhiteSpace c = false)
    (hl : ∀ c, t.getLast? = some c → isJsWhiteSpace c = false) : trimChars t = t := by
  unfold trimChars
  rw [dropWhile_of_head _ t hh, dropWhile_of_head _ t.reverse (by simpa using hl)]
  exact List.reverse_reverse t

theorem trimChars_space_clean (t : List Char)
    (hh : ∀ c, t.head? = some c → isJsWhiteSpace c = false)
    (hl : ∀ c, t.getLast? = some c → isJsWhiteSpace c = false) : trimChars (' ' :: t) = t := by
  have e : (' ' :: t).dropWhile isJsWhiteSpace = t.dropWhile isJsWhiteSpace := by
    have : isJsWhiteSpace ' ' = true := by decide
    simp [List.dropWhile_cons, this]
  have := trimChars_clean t hh hl
  unfold trimChars at this ⊢
  rw [e]
  exact this

theorem parseTags_join (tags : List String) (hne : tags ≠ [])
    (hclean : ∀ t ∈ tags, ',' ∉ t.data ∧ (∀ c, t.data.head? = some c → isJsWhiteSpace c = false) ∧
      (∀ c, t.data.getLast? = some c → isJsWhiteSpace c = false)) :
    parseTags (jsJoinCommaSpace tags) = tags := by
  cases tags with
  | nil => exact absurd rfl hne
  | cons t ts =>
    have hsplit := splitChars_join t.data (ts.map String.data) (by
      intro x hx
      simp only [List.mem_cons, List.mem_map] at hx
      rcases hx with rfl | ⟨u, hu, rfl⟩
      · exact (hclean t (by simp)).1
      · exact (hclean u (by simp [hu])).1)
    simp only [parseTags, jsSplitComma, jsJoinCommaSpace, List.map_cons, hsplit, List.map_map,
      List.cons.injEq]
    constructor
    · have := hclean t (by simp)
      simp only [jsTrim]
      rw [trimChars_clean t.data this.2.1 this.2.2]
    · apply (List.map_congr_left ?_).trans (List.map_id ts)
      intro u hu
      have := hclean u (by simp [hu])
      simp only [Function.comp, jsTrim, id]
      rw [trimChars_space_clean u.data this.2.1 this.2.2]

theorem orNull_of_ne (x : Option String) (h : x ≠ some "") : orNull x = x := by
  cases x with
  | none => rfl
  | some u =>
    have : u ≠ "" := fun e => h (by rw [e])
    simp [orNull, optTruthy, strTruthy, this]

/-- Claim C10: for a note list with pairwise distinct ids and a note in it whose
tags list is non-empty, every tag being free of commas and of leading and
trailing white space, and whose image and audioUri are not the empty string,
`openEditModal(note)` followed by a successful `addOrUpdateNote` saves the
original list: parsing the tags joined with `", "` gives the tags back. -/
theorem edit_without_change (s : App) (note : Note) (now : Nat)
    (hids : (s.notes.map Note.id).Nodup) (hmem : note ∈ s.notes) (htags : note.tags ≠ [])
    (hclean : ∀ t ∈ note.tags, ',' ∉ t.data ∧
      (∀ c, t.data.head? = some c → isJsWhiteSpace c = false) ∧
      (∀ c, t.data.getLast? = some c → isJsWhiteSpace c = false))
    (himage : note.image ≠ some "") (haudio : note.audioUri ≠ some "") :
    (addOrUpdateNote true now (openEditModal note s)).notes = s.notes ∧
    (addOrUpdateNote true now (openEditModal note s)).stored =
      some (jsonStringify (notesToJson s.notes)) ∧
    parseTags (jsJoinCommaSpace note.tags) = note.tags := by
  have htag := parseTags_join note.tags htags hclean
  have hmap : s.notes.map (fun n => if n.id = note.id then
      spread n (noteData (openEditModal note s)) else n) = s.notes := by
    apply (List.map_congr_left ?_).trans (List.map_id s.notes)
    intro n hn
    by_cases h : n.id = note.id
    · have hnn : n = note := List.inj_on_of_nodup_map hids hn hmem h
      subst hnn
      simp [spread, noteData, openEditModal, htag, orNull_of_ne _ himage, orNull_of_ne _ haudio]
    · simp [h]
  have hnotes : (addOrUpdateNote true now (openEditModal note s)).notes = s.notes := by
    rw [← hmap]
    simp [addOrUpdateNote, openEditModal, saveNotes, resetNoteInputs]
  refine ⟨hnotes, ?_, htag⟩
  rw [← hnotes]
  simp [addOrUpdateNote, openEditModal, saveNotes, resetNoteInputs]

/-! ### Ids: the decimal string of a clock reading determines the reading -/

theorem digitChar_value (k : Nat) (hk : k < 10) : (Nat.digitChar k).toNat - 48 = k := by
  interval_cases k <;> rfl

theorem toDigitsCore_value (fuel : Nat) : ∀ (n : Nat) (ds : List Char), n < fuel →
    ∃ pre, Nat.toDigitsCore 10 fuel n ds = pre ++ ds ∧ digitsValue pre = n := by
  induction fuel with
  | zero => intro n ds h; omega
  | succ fuel ih =>
    intro n ds h
    simp only [Nat.toDigitsCore]
    by_cases h0 : n / 10 = 0
    · simp only [h0, if_true]
      refine ⟨[Nat.digitChar (n % 10)], rfl, ?_⟩
      simp only [digitsValue, List.foldl_cons, List.foldl_nil, Nat.mul_zero, Nat.zero_add]
      rw [digitChar_value _ (Nat.mod_lt _ (by decide))]
      omega
    · simp only [h0, if_false]
      obtain ⟨pre, hpre, hval⟩ := ih (n / 10) (Nat.digitChar (n % 10) :: ds) (by omega)
      refine ⟨pre ++ [Nat.digitChar (n % 10)], by simp [hpre], ?_⟩
      unfold digitsValue at hval ⊢
      rw [List.foldl_append, hval]
      simp only [List.foldl_cons, List.foldl_nil]
      rw [digitChar_value _ (Nat.mod_lt _ (by decide))]
      omega

theorem digitsValue_toString (n : Nat) : digitsValue (toString n).data = n := by
  obtain ⟨pre, hpre, hval⟩ := toDigitsCore_value (n + 1) n [] (by omega)
  have : (toString n).data = pre := by
    show (Nat.repr n).data = pre
    simp only [Nat.repr, Nat.toDigits, List.asString]
    simpa using hpre
  rw [this, hval]

theorem toString_nat_injective (m n : Nat) (h : toString m = toString n) : m = n := by
  have := congrArg (fun s : String => digitsValue s.data) h
  simpa [digitsValue_toString] using this

/-! ### The ids along a session -/

theorem map_toggle_ids (l : List Note) (f : Note → Note) (hf : ∀ n, (f n).id = n.id) :
    (l.map f).map Note.id = l.map Note.id := by
  rw [List.map_map]
  exact List.map_congr_left (fun n _ => hf n)

/-- What one event does to the stored notes: the ids stay in place, or one note
with the id of the clock reading is prepended, or notes are removed. -/
theorem step_notes_cases (s : App) (e : Event) :
    ((step s e).notes.map Note.id = s.notes.map Note.id ∧
      (step s e).notes.length = s.notes.length) ∨
    (∃ ok now n, e = Event.save ok now ∧ createsNote s = true ∧ n.id = toString now ∧
      (step s e).notes = n :: s.notes) ∨
    List.Sublist (step s e).notes s.notes := by
  cases e with
  | fillForm title text tags image audioUri => exact Or.inl ⟨rfl, rfl⟩
  | openEdit note => exact Or.inl ⟨rfl, rfl⟩
  | save ok now =>
    cases ok with
    | false =>
      left
      simp only [step, addOrUpdateNote, saveNotes, resetNoteInputs]
      cases s.editNote <;> simp
    | true =>
      cases he : s.editNote with
      | some target =>
        left
        simp only [step, addOrUpdateNote, he, saveNotes, resetNoteInputs, if_true]
        refine ⟨map_toggle_ids _ _ ?_, by simp⟩
        intro n
        split <;> rfl
      | none =>
        by_cases hc : (strTruthy (jsTrim s.title) || strTruthy (jsTrim s.text) ||
            optTruthy s.image || optTruthy s.audioUri) = true
        · right; left
          refine ⟨true, now,
            { id := toString now, title := s.title, text := s.text, tags := parseTags s.tags,
              image := s.image, audioUri := s.audioUri, favorite := false, archived := false },
            rfl, by simp [createsNote, he, hc], rfl, ?_⟩
          simp [step, addOrUpdateNote, he, hc, saveNotes, resetNoteInputs, noteData]
        · left
          simp [step, addOrUpdateNote, he, hc, resetNoteInputs]
  | delete confirmed ok id =>
    right; right
    simp only [step, deleteNote, saveNotes]
    cases confirmed <;> cases ok <;> simp [List.filter_sublist]
  | toggleFavorite ok id =>
    left
    simp only [step, toggleFavorite, saveNotes]
    cases ok
    · simp
    · simp only [if_true]
      refine ⟨map_toggle_ids _ _ ?_, by simp⟩
      intro n
      split <;> rfl
  | toggleArchive ok id =>
    left
    simp only [step, toggleArchive, saveNotes]
    cases ok
    · simp
    · simp only [if_true]
      refine ⟨map_toggle_ids _ _ ?_, by simp⟩
      intro n
      split <;> rfl

theorem creationClocks_cons (s : App) (e : Event) (es : List Event) :
    creationClocks s (e :: es) =
      (match e with
        | Event.save _ now => if createsNote s then [now] else []
        | _ => []) ++ creationClocks (step s e) es := by
  cases e <;> simp [creationClocks]
  split <;> simp

theorem ids_nodup_of_clocks (evs : List Event) : ∀ (s : App) (seen : List Nat),
    (s.notes.map Note.id).Nodup →
    (∀ i ∈ s.notes.map Note.id, ∃ t ∈ seen, i = toString t) →
    (seen ++ creationClocks s evs).Nodup →
    ((run s evs).notes.map Note.id).Nodup := by
  induction evs with
  | nil => intro s seen h _ _; exact h
  | cons e es ih =>
    intro s seen hnd hseen hclk
    rw [creationClocks_cons] at hclk
    simp only [run]
    rcases step_notes_cases s e with ⟨hA, _⟩ | ⟨ok, now, n, he, hc, hid, hB⟩ | hC
    · apply ih (step s e) seen
      · rw [hA]; exact hnd
      · rw [hA]; exact hseen
      · rw [← List.append_assoc] at hclk
        exact (List.nodup_append.mp hclk).2.1 |> fun h2 =>
          List.Nodup.append (List.nodup_append.mp (List.nodup_append.mp hclk).1).1 h2
            (fun x hx hy => (List.nodup_append.mp hclk).2.2 (List.mem_append_left _ hx) hy)
    · subst he
      simp only [hc, if_true] at hclk
      rw [← List.append_assoc] at hclk
      apply ih (step s (Event.save ok now)) (seen ++ [now])
      · rw [hB, List.map_cons, List.nodup_cons]
        refine ⟨?_, hnd⟩
        intro hmem
        rw [hid] at hmem
        obtain ⟨t, ht, htn⟩ := hseen _ hmem
        have htn2 := toString_nat_injective _ _ htn
        have h3 := (List.nodup_append.mp hclk).1
        have h4 := (List.nodup_append.mp h3).2.2
        exact h4 (htn2 ▸ ht) (by simp)
      · intro i hi
        rw [hB, List.map_cons, List.mem_cons] at hi
        rcases hi with rfl | hi
        · exact ⟨now, by simp, hid⟩
        · obtain ⟨t, ht, hti⟩ := hseen i hi
          exact ⟨t, by simp [ht], hti⟩
      · exact hclk
    · apply ih (step s e) seen
      · exact hnd.sublist (hC.map Note.id)
      · intro i hi
        exact hseen i ((hC.map Note.id).subset hi)
      · rw [← List.append_assoc] at hclk
        exact List.Nodup.append (List.nodup_append.mp (List.nodup_append.mp hclk).1).1
          (List.nodup_append.mp hclk).2.1
          (fun x hx hy => (List.nodup_append.mp hclk).2.2 (List.mem_append_left _ hx) hy)

/-- Claim C7 fails as stated: two notes created at the same clock reading get
the same id. -/
theorem ids_repeat_on_equal_clock :
    ¬ ∀ (s : App) (evs : List Event), s.notes = [] →
      ((run s evs).notes.map Note.id).Nodup := by
  intro h
  have h1 := h (freshSession none)
    [Event.fillForm "a" "" "" none none, Event.save true 5,
     Event.fillForm "b" "" "" none none, Event.save true 5] rfl
  revert h1
  decide

/-- Claim C7, amended: starting from the empty list, after every sequence of
events (form input, open for edit, save, delete, toggle) along which
`Date.now()` returns pairwise distinct readings, the ids of the note list are
pairwise distinct; and whatever the clock, no event changes the id of a note
that exists: an event keeps the ids in place, or prepends one note to the
unchanged list, or removes notes. -/
theorem ids_pairwise_distinct (s : App) (evs : List Event) (hempty : s.notes = [])
    (hclock : (creationClocks s evs).Nodup) :
    ((run s evs).notes.map Note.id).Nodup ∧
    ∀ (s0 : App) (e : Event),
      ((step s0 e).notes.map Note.id = s0.notes.map Note.id ∧
        (step s0 e).notes.length = s0.notes.length) ∨
      (∃ n, (step s0 e).notes = n :: s0.notes) ∨
      List.Sublist (step s0 e).notes s0.notes := by
  constructor
  · apply ids_nodup_of_clocks evs s []
    · simp [hempty]
    · simp [hempty]
    · simpa using hclock
  · intro s0 e
    rcases step_notes_cases s0 e with h | ⟨_, _, n, _, _, _, h⟩ | h
    · exact Or.inl h
    · exact Or.inr (Or.inl ⟨n, h⟩)
    · exact Or.inr (Or.inr h)

/-! ### `JSON.parse` reads back what `JSON.stringify` writes -/

theorem parseStringBody_close (rest : List Char) :
    parseStringBody ('"' :: rest) = some ([], rest) := by
  unfold parseStringBody; simp

theorem parseStringBody_plain (c : Char) (cs : List Char) (h1 : c ≠ '"') (h2 : c ≠ '\\')
    (h3 : ¬ c.toNat < 0x20) :
    parseStringBody (c :: cs) = (parseStringBody cs).map fun p => (c :: p.1, p.2) := by
  conv => lhs; unfold parseStringBody
  simp [h1, h2, h3]

theorem parseStringBody_letter (e x : Char) (cs : List Char) (h1 : e ≠ 'u')
    (h2 : escapeLetter e = some x) :
    parseStringBody ('\\' :: e :: cs) = (parseStringBody cs).map fun p => (x :: p.1, p.2) := by
  conv => lhs; unfold parseStringBody
  simp [h1, h2]

theorem parseStringBody_hex (a b c d : Char) (n : Nat) (cs : List Char)
    (h1 : hex4 a b c d = some n) (h2 : ¬ (0xD800 ≤ n ∧ n ≤ 0xDFFF)) :
    parseStringBody ('\\' :: 'u' :: a :: b :: c :: d :: cs) =
      (parseStringBody cs).map fun p => (Char.ofNat n :: p.1, p.2) := by
  conv => lhs; unfold parseStringBody
  simp [h1, h2]

theorem hex4_control : ∀ n, n < 32 →
    hex4 '0' '0' (hexDigit (n / 16)) (hexDigit (n % 16)) = some n := by
  decide

theorem parseStringBody_quoteChar (c : Char) (tail : List Char) :
    parseStringBody (quoteChar c ++ tail) =
      (parseStringBody tail).map fun p => (c :: p.1, p.2) := by
  have hc : Char.ofNat c.toNat = c := Char.ofNat_toNat c
  unfold quoteChar
  by_cases h1 : c = '"'
  · subst h1
    simp only [if_true, List.cons_append, List.nil_append]
    exact parseStringBody_letter _ _ _ (by decide) (by decide)
  by_cases h2 : c = '\\'
  · subst h2
    simp only [h1, if_false, if_true, List.cons_append, List.nil_append]
    exact parseStringBody_letter _ _ _ (by decide) (by decide)
  by_cases h3 : c.toNat = 0x08
  · rw [h3] at hc
    simp only [h1, h2, h3, if_false, if_true, List.cons_append, List.nil_append]
    rw [← hc]
    exact parseStringBody_letter _ _ _ (by decide) (by decide)
  by_cases h4 : c.toNat = 0x0C
  · rw [h4] at hc
    simp only [h1, h2, h3, h4, if_false, if_true, List.cons_append, List.nil_append]
    rw [← hc]
    exact parseStringBody_letter _ _ _ (by decide) (by decide)
  by_cases h5 : c.toNat = 0x0A
  · rw [h5] at hc
    simp only [h1, h2, h3, h4, h5, if_false, if_true, List.cons_append, List.nil_append]
    rw [← hc]
    exact parseStringBody_letter _ _ _ (by decide) (by decide)
  by_cases h6 : c.toNat = 0x0D
  · rw [h6] at hc
    simp only [h1, h2, h3, h4, h5, h6, if_false, if_true, List.cons_append, List.nil_append]
    rw [← hc]
    exact parseStringBody_letter _ _ _ (by decide) (by decide)
  by_cases h7 : c.toNat = 0x09
  · rw [h7] at hc
    simp only [h1, h2, h3, h4, h5, h6, h7, if_false, if_true, List.cons_append, List.nil_append]
    rw [← hc]
    exact parseStringBody_letter _ _ _ (by decide) (by decide)
  by_cases h8 : c.toNat < 0x20
  · simp only [h1, h2, h3, h4, h5, h6, h7, h8, if_false, if_true, List.cons_append,
      List.nil_append]
    rw [parseStringBody_hex _ _ _ _ c.toNat _ (hex4_control c.toNat h8) (by omega), hc]
  · simp only [h1, h2, h3, h4, h5, h6, h7, h8, if_false, List.cons_append, List.nil_append]
    exact parseStringBody_plain c tail h1 h2 h8

theorem parseStringBody_quote (cs rest : List Char) :
    parseStringBody (cs.flatMap quoteChar ++ '"' :: rest) = some (cs, rest) := by
  induction cs with
  | nil => exact parseStringBody_close rest
  | cons c cs ih =>
    rw [List.flatMap_cons, List.append_assoc, parseStringBody_quoteChar, ih]
    rfl

theorem skipWs_cons (c : Char) (r : List Char)
    (h : c ≠ ' ' ∧ c ≠ '\t' ∧ c ≠ '\n' ∧ c ≠ '\r') : skipWs (c :: r) = c :: r := by
  simp [skipWs, h.1, h.2.1, h.2.2.1, h.2.2.2]

theorem reads_str (fuel : Nat) (s : String) : Reads (fuel + 1) (Json.str s) := by
  constructor
  · intro rest
    have e : stringifyJson (Json.str s) ++ rest =
        '"' :: (s.data.flatMap quoteChar ++ '"' :: rest) := by
      simp [stringifyJson, quoteJson]
    rw [e, parseValue, skipWs_cons _ _ (by decide)]
    simp [parseStringBody_quote]
  · exact ⟨'"', s.data.flatMap quoteChar ++ ['"'], by simp [stringifyJson, quoteJson],
      by unfold startsValue; decide⟩

theorem reads_null (fuel : Nat) : Reads (fuel + 1) Json.null := by
  constructor
  · intro rest
    simp only [stringifyJson, List.cons_append, List.nil_append]
    rw [parseValue, skipWs_cons _ _ (by decide)]
    simp
  · exact ⟨'n', ['u', 'l', 'l'], by simp [stringifyJson], by unfold startsValue; decide⟩

theorem reads_bool (fuel : Nat) (b : Bool) : Reads (fuel + 1) (Json.bool b) := by
  cases b
  · constructor
    · intro rest
      simp only [stringifyJson, List.cons_append, List.nil_append]
      rw [parseValue, skipWs_cons _ _ (by decide)]
      simp
    · exact ⟨'f', ['a', 'l', 's', 'e'], by simp [stringifyJson], by unfold startsValue; decide⟩
  · constructor
    · intro rest
      simp only [stringifyJson, List.cons_append, List.nil_append]
      rw [parseValue, skipWs_cons _ _ (by decide)]
      simp
    · exact ⟨'t', ['r', 'u', 'e'], by simp [stringifyJson], by unfold startsValue; decide⟩

theorem parseElements_stringify (pv : List Char → Option (Json × List Char))
    (vs : List Json) (hne : vs ≠ [])
    (hpv : ∀ v ∈ vs, ∀ rest, pv (stringifyJson v ++ rest) = some (v, rest)) :
    ∀ n, vs.length ≤ n → ∀ rest,
      parseElements pv n (stringifyElements vs ++ ']' :: rest) = some (vs, rest) := by
  induction vs with
  | nil => exact absurd rfl hne
  | cons v vs ih =>
    intro n hn rest
    cases n with
    | zero => simp at hn
    | succ n =>
      cases vs with
      | nil =>
        simp only [stringifyElements]
        rw [parseElements, hpv v (by simp)]
        simp only [skipWs_cons _ _ (show (']' : Char) ≠ ' ' ∧ (']' : Char) ≠ '\t' ∧
          (']' : Char) ≠ '\n' ∧ (']' : Char) ≠ '\r' by decide)]
        simp
      | cons w ws =>
        have ih2 := ih (by simp) (fun u hu => hpv u (List.mem_cons_of_mem _ hu)) n
          (by simpa using hn) rest
        simp only [stringifyElements, List.append_assoc, List.cons_append]
        rw [parseElements, hpv v (by simp)]
        simp only [skipWs_cons _ _ (show (',' : Char) ≠ ' ' ∧ (',' : Char) ≠ '\t' ∧
          (',' : Char) ≠ '\n' ∧ (',' : Char) ≠ '\r' by decide)]
        simp [ih2]

theorem stringifyElements_head (vs : List Json) (hne : vs ≠ [])
    (h : ∀ v ∈ vs, ∃ c t, stringifyJson v = c :: t ∧ startsValue c) :
    ∃ c t, stringifyElements vs = c :: t ∧ startsValue c := by
  cases vs with
  | nil => exact absurd rfl hne
  | cons v vs =>
    obtain ⟨c, t, hct, hc⟩ := h v (by simp)
    cases vs with
    | nil => exact ⟨c, t, by simp [stringifyElements, hct], hc⟩
    | cons w ws =>
      exact ⟨c, t ++ ',' :: stringifyElements (w :: ws),
        by simp only [stringifyElements, hct, List.cons_append], hc⟩

theorem reads_arr (fuel : Nat) (vs : List Json) (h : ∀ v ∈ vs, Reads fuel v)
    (hlen : vs.length ≤ fuel) : Reads (fuel + 1) (Json.arr vs) := by
  constructor
  · intro rest
    have e : stringifyJson (Json.arr vs) ++ rest =
        '[' :: (stringifyElements vs ++ ']' :: rest) := by
      simp [stringifyJson]
    rw [e, parseValue, skipWs_cons _ _ (by decide)]
    by_cases hne : vs = []
    · subst hne
      simp only [stringifyElements, List.nil_append]
      rw [skipWs_cons _ _ (by decide)]
      simp
    · obtain ⟨c, t, hct, hc⟩ := stringifyElements_head vs hne (fun v hv => (h v hv).2)
      have hp := parseElements_stringify (parseValue fuel) vs hne (fun v hv => (h v hv).1)
        fuel hlen rest
      rw [hct] at hp ⊢
      simp only [List.cons_append] at hp ⊢
      rw [skipWs_cons _ _ ⟨hc.1, hc.2.1, hc.2.2.1, hc.2.2.2.1⟩]
      simp [hc.2.2.2.2.1, hp]
  · exact ⟨'[', stringifyElements vs ++ [']'], by simp [stringifyJson],
      by unfold startsValue; decide⟩

theorem skipWs_colon (r : List Char) : skipWs (':' :: r) = ':' :: r :=
  skipWs_cons _ _ (by decide)

theorem skipWs_comma (r : List Char) : skipWs (',' :: r) = ',' :: r :=
  skipWs_cons _ _ (by decide)

theorem skipWs_quote (r : List Char) : skipWs ('"' :: r) = '"' :: r :=
  skipWs_cons _ _ (by decide)

theorem skipWs_brace (r : List Char) : skipWs ('}' :: r) = '}' :: r :=
  skipWs_cons _ _ (by decide)

theorem parseMembers_stringify (pv : List Char → Option (Json × List Char))
    (ms : List (String × Json)) (hne : ms ≠ [])
    (hpv : ∀ m ∈ ms, ∀ rest, pv (stringifyJson m.2 ++ rest) = some (m.2, rest)) :
    ∀ n, ms.length ≤ n → ∀ rest,
      parseMembers pv n (stringifyMembers ms ++ '}' :: rest) = some (ms, rest) := by
  induction ms with
  | nil => exact absurd rfl hne
  | cons m ms ih =>
    intro n hn rest
    obtain ⟨k, v⟩ := m
    have hv := hpv (k, v) (by simp)
    simp only at hv
    cases n with
    | zero => simp at hn
    | succ n =>
      cases ms with
      | nil =>
        have e : stringifyMembers [(k, v)] ++ '}' :: rest =
            '"' :: (k.data.flatMap quoteChar ++ '"' :: ':' :: (stringifyJson v ++ '}' :: rest)) := by
          simp [stringifyMembers, quoteJson]
        rw [e, parseMembers, skipWs_quote]
        simp only [if_true, parseStringBody_quote, skipWs_colon, hv, skipWs_brace]
        simp
      | cons m2 ms2 =>
        have ih2 := ih (by simp) (fun u hu => hpv u (List.mem_cons_of_mem _ hu)) n
          (by simpa using hn) rest
        have e : stringifyMembers ((k, v) :: m2 :: ms2) ++ '}' :: rest =
            '"' :: (k.data.flatMap quoteChar ++ '"' :: ':' :: (stringifyJson v ++
              ',' :: (stringifyMembers (m2 :: ms2) ++ '}' :: rest))) := by
          simp [stringifyMembers, quoteJson]
        rw [e, parseMembers, skipWs_quote]
        simp only [if_true, parseStringBody_quote, skipWs_colon, hv, skipWs_comma, ih2]
        simp

theorem reads_obj (fuel : Nat) (ms : List (String × Json)) (h : ∀ m ∈ ms, Reads fuel m.2)
    (hlen : ms.length ≤ fuel) : Reads (fuel + 1) (Json.obj ms) := by
  constructor
  · intro rest
    have e : stringifyJson (Json.obj ms) ++ rest =
        '{' :: (stringifyMembers ms ++ '}' :: rest) := by
      simp [stringifyJson]
    rw [e, parseValue, skipWs_cons _ _ (by decide)]
    by_cases hne : ms = []
    · subst hne
      simp only [stringifyMembers, List.nil_append]
      rw [skipWs_brace]
      simp
    · have hp := parseMembers_stringify (parseValue fuel) ms hne (fun m hm => (h m hm).1)
        fuel hlen rest
      have hq : ∃ t, stringifyMembers ms = '"' :: t := by
        cases ms with
        | nil => exact absurd rfl hne
        | cons m ms =>
          obtain ⟨k, v⟩ := m
          cases ms with
          | nil => exact ⟨_, by simp only [stringifyMembers, quoteJson, List.cons_append]; rfl⟩
          | cons m2 ms2 =>
            exact ⟨_, by simp only [stringifyMembers, quoteJson, List.cons_append]; rfl⟩
      obtain ⟨t, ht⟩ := hq
      rw [ht] at hp ⊢
      simp only [List.cons_append] at hp ⊢
      rw [skipWs_quote]
      simp [hp]
  · exact ⟨'{', stringifyMembers ms ++ ['}'], by simp [stringifyJson],
      by unfold startsValue; decide⟩

theorem reads_opt (fuel : Nat) (x : Option String) : Reads (fuel + 1) (optToJson x) := by
  cases x with
  | none => exact reads_null fuel
  | some u => exact reads_str fuel u

theorem reads_tags (fuel : Nat) (tags : List String) (h : tags.length ≤ fuel) :
    Reads (fuel + 1) (Json.arr (tags.map Json.str)) := by
  apply reads_arr
  · intro v hv
    obtain ⟨t, ht, rfl⟩ := List.mem_map.mp hv
    cases fuel with
    | zero =>
      have := List.length_pos_of_mem ht
      omega
    | succ f => exact reads_str f t
  · simpa using h

theorem reads_note (fuel : Nat) (n : Note) (h8 : 7 ≤ fuel) (h : n.tags.length ≤ fuel) :
    Reads (fuel + 2) (Note.toJson n) := by
  unfold Note.toJson
  apply reads_obj
  · intro m hm
    simp only [List.mem_cons, List.mem_singleton, List.not_mem_nil, or_false] at hm
    rcases hm with rfl | rfl | rfl | rfl | rfl | rfl | rfl | rfl
    · exact reads_str fuel _
    · exact reads_str fuel _
    · exact reads_str fuel _
    · exact reads_tags fuel _ h
    · exact reads_opt fuel _
    · exact reads_opt fuel _
    · exact reads_bool fuel _
    · exact reads_bool fuel _
  · simp only [List.length_cons, List.length_nil]
    omega

theorem reads_notes (fuel : Nat) (l : List Note) (hlen : l.length ≤ fuel)
    (h : ∀ n ∈ l, 9 ≤ fuel ∧ n.tags.length + 2 ≤ fuel) :
    Reads (fuel + 1) (notesToJson l) := by
  unfold notesToJson
  apply reads_arr
  · intro v hv
    obtain ⟨n, hn, rfl⟩ := List.mem_map.mp hv
    obtain ⟨h9, ht⟩ := h n hn
    obtain ⟨f, rfl⟩ : ∃ f, fuel = f + 2 := ⟨fuel - 2, by omega⟩
    exact reads_note f n (by omega) (by omega)
  · simpa using hlen

theorem stringifyElements_length_mem (vs : List Json) :
    ∀ v ∈ vs, (stringifyJson v).length ≤ (stringifyElements vs).length := by
  induction vs with
  | nil => simp
  | cons w ws ih =>
    intro v hv
    cases ws with
    | nil =>
      simp only [List.mem_singleton] at hv
      subst hv
      simp [stringifyElements]
    | cons w2 ws2 =>
      simp only [stringifyElements, List.length_append, List.length_cons]
      rcases List.mem_cons.mp hv with rfl | hv2
      · omega
      · have := ih v hv2
        omega

theorem stringifyElements_length_ge (vs : List Json)
    (h : ∀ v ∈ vs, 1 ≤ (stringifyJson v).length) :
    vs.length ≤ (stringifyElements vs).length := by
  induction vs with
  | nil => simp
  | cons w ws ih =>
    cases ws with
    | nil =>
      simpa [stringifyElements] using h w (by simp)
    | cons w2 ws2 =>
      have := ih (fun v hv => h v (List.mem_cons_of_mem _ hv))
      simp only [stringifyElements, List.length_append, List.length_cons] at this ⊢
      omega

theorem stringifyJson_arr_length (xs : List Json) :
    (stringifyJson (Json.arr xs)).length = (stringifyElements xs).length + 2 := by
  have e : stringifyJson (Json.arr xs) = '[' :: (stringifyElements xs ++ [']']) := by
    simp [stringifyJson]
  rw [e]
  simp

theorem stringifyJson_obj_length (ms : List (String × Json)) :
    (stringifyJson (Json.obj ms)).length = (stringifyMembers ms).length + 2 := by
  have e : stringifyJson (Json.obj ms) = '{' :: (stringifyMembers ms ++ ['}']) := by
    simp [stringifyJson]
  rw [e]
  simp

theorem stringifyJson_str_length (s : String) : 2 ≤ (stringifyJson (Json.str s)).length := by
  have e : stringifyJson (Json.str s) = '"' :: (s.data.flatMap quoteChar ++ ['"']) := by
    simp [stringifyJson, quoteJson]
  rw [e]
  simp

theorem stringifyMembers_length_ge (ms : List (String × Json)) :
    3 * ms.length ≤ (stringifyMembers ms).length := by
  induction ms with
  | nil => simp
  | cons m ms ih =>
    obtain ⟨k, v⟩ := m
    cases ms with
    | nil =>
      simp only [stringifyMembers, quoteJson, List.length_append, List.length_cons,
        List.length_nil]
      omega
    | cons m2 ms2 =>
      simp only [stringifyMembers, quoteJson, List.length_append, List.length_cons,
        List.length_nil] at ih ⊢
      omega

theorem stringifyMembers_length_mem (ms : List (String × Json)) :
    ∀ m ∈ ms, (stringifyJson m.2).length ≤ (stringifyMembers ms).length := by
  induction ms with
  | nil => simp
  | cons m0 ms ih =>
    intro m hm
    obtain ⟨k, v⟩ := m0
    cases ms with
    | nil =>
      simp only [List.mem_singleton] at hm
      subst hm
      simp only [stringifyMembers, List.length_append, List.length_cons]
      omega
    | cons m2 ms2 =>
      simp only [stringifyMembers, List.length_append, List.length_cons]
      rcases List.mem_cons.mp hm with rfl | hm2
      · simp only
        omega
      · have := ih m hm2
        omega

theorem note_text_length (n : Note) :
    9 ≤ (stringifyJson (Note.toJson n)).length ∧
    n.tags.length + 2 ≤ (stringifyJson (Note.toJson n)).length := by
  have ht : n.tags.length ≤ (stringifyElements (n.tags.map Json.str)).length := by
    have := stringifyElements_length_ge (n.tags.map Json.str) (by
      intro v hv
      obtain ⟨t, _, rfl⟩ := List.mem_map.mp hv
      have := stringifyJson_str_length t
      omega)
    simpa using this
  unfold Note.toJson
  rw [stringifyJson_obj_length]
  constructor
  · have := stringifyMembers_length_ge [("id", Json.str n.id), ("title", Json.str n.title),
      ("text", Json.str n.text), ("tags", Json.arr (n.tags.map Json.str)),
      ("image", optToJson n.image), ("audioUri", optToJson n.audioUri),
      ("favorite", Json.bool n.favorite), ("archived", Json.bool n.archived)]
    simp only [List.length_cons, List.length_nil] at this
    omega
  · have := stringifyMembers_length_mem [("id", Json.str n.id), ("title", Json.str n.title),
      ("text", Json.str n.text), ("tags", Json.arr (n.tags.map Json.str)),
      ("image", optToJson n.image), ("audioUri", optToJson n.audioUri),
      ("favorite", Json.bool n.favorite), ("archived", Json.bool n.archived)]
      ("tags", Json.arr (n.tags.map Json.str)) (by simp)
    rw [stringifyJson_arr_length] at this
    omega

theorem jsonParse_stringify_notes (l : List Note) :
    jsonParse (jsonStringify (notesToJson l)) = some (notesToJson l) := by
  have hr : Reads ((stringifyJson (notesToJson l)).length + 1) (notesToJson l) := by
    apply reads_notes
    · have h1 := stringifyElements_length_ge (l.map Note.toJson) (by
        intro v hv
        obtain ⟨n, _, rfl⟩ := List.mem_map.mp hv
        have := (note_text_length n).1
        omega)
      simp only [List.length_map] at h1
      unfold notesToJson
      rw [stringifyJson_arr_length]
      omega
    · intro n hn
      have h1 := stringifyElements_length_mem (l.map Note.toJson) (Note.toJson n)
        (List.mem_map_of_mem _ hn)
      have h2 := note_text_length n
      unfold notesToJson
      rw [stringifyJson_arr_length]
      omega
  have := hr.1 []
  simp only [List.append_nil] at this
  simp [jsonParse, jsonStringify, this, skipWs]

theorem allSome_map_some {α β : Type} (f : α → Option β) (g : β → α)
    (h : ∀ b, f (g b) = some b) (l : List β) : allSome ((l.map g).map f) = some l := by
  induction l with
  | nil => rfl
  | cons b bs ih =>
    simp only [List.map_cons, h b, allSome, ih]
    rfl

theorem noteOfJson_toJson (n : Note) : noteOfJson (Note.toJson n) = some n := by
  have ht : allSome ((n.tags.map Json.str).map strOfJson) = some n.tags :=
    allSome_map_some strOfJson Json.str (fun _ => rfl) n.tags
  have hi : ∀ x : Option String, optOfJson (optToJson x) = some x := by
    intro x; cases x <;> rfl
  simp only [Note.toJson, noteOfJson, ht, hi]
  simp

theorem notesOfJson_toJson (l : List Note) : notesOfJson (notesToJson l) = some l := by
  simp only [notesToJson, notesOfJson]
  exact allSome_map_some noteOfJson Note.toJson noteOfJson_toJson l

theorem jsonStringify_notes_truthy (l : List Note) :
    strTruthy (jsonStringify (notesToJson l)) = true := by
  rw [strTruthy_iff]
  have e : stringifyJson (notesToJson l) =
      '[' :: (stringifyElements (l.map Note.toJson) ++ [']']) := by
    simp [notesToJson, stringifyJson]
  simp [jsonStringify, e]

/-- Claim C8: for every note list `l`, the empty one included, after a
successful `saveNotes(l)` a fresh session starts with the empty list and
`loadNotes` sets its in-memory list to `l`. -/
theorem save_load_roundtrip (l : List Note) (s : App) :
    (saveNotes true l s).notes = l ∧
    (saveNotes true l s).stored = some (jsonStringify (notesToJson l)) ∧
    (freshSession (saveNotes true l s).stored).notes = [] ∧
    ∃ s1, loadNotes true (freshSession (saveNotes true l s).stored) = some s1 ∧
      s1.notes = l ∧ s1.stored = (saveNotes true l s).stored := by
  refine ⟨by simp [saveNotes], by simp [saveNotes], rfl, ?_⟩
  refine ⟨{ freshSession (saveNotes true l s).stored with notes := l }, ?_, rfl, rfl⟩
  simp [loadNotes, saveNotes, freshSession, jsonStringify_notes_truthy,
    jsonParse_stringify_notes, notesOfJson_toJson]

/-! ### The claims at concrete inputs -/

/-- The amended claim C1 at a form with title "Milk" saved at clock reading 7. -/
theorem addOrUpdateNote_create_witness :
    composeState.editNote = none ∧ 'M' ∈ composeState.title.data ∧
    isJsWhiteSpace 'M' = false ∧
    (addOrUpdateNote true 7 composeState).notes =
      [{ id := "7", title := "Milk", text := "", tags := ["a", "b", "", "c"], image := none,
         audioUri := none, favorite := false, archived := false }] :=
  ⟨rfl, by decide, by decide,
    (addOrUpdateNote_create composeState 7 rfl (Or.inl ⟨'M', by decide, by decide⟩)).1.trans
      (by decide)⟩

/-- Claim C2 at note `A` opened for edit with the title retyped. -/
theorem addOrUpdateNote_edit_frame_witness :
    editState.editNote = some (sampleNote "1" "A" true false) ∧
    (addOrUpdateNote true 0 editState).notes.length = 2 ∧
    ∃ m, (addOrUpdateNote true 0 editState).notes[0]? = some m ∧ m.title = "New" ∧
      m.id = "1" ∧ m.favorite = true ∧ m.archived = false := by
  have h := addOrUpdateNote_edit_frame editState 0 (sampleNote "1" "A" true false) rfl
  refine ⟨rfl, h.1, ?_⟩
  obtain ⟨m, hm, h1, _⟩ := h.2.2 0 (sampleNote "1" "A" true false) rfl
  have h2 := h1 rfl
  exact ⟨m, hm, h2.1, h2.2.2.2.2.2.1, h2.2.2.2.2.2.2.1, h2.2.2.2.2.2.2.2⟩

/-- The amended claim C3 at `sampleApp`: deleting id "1" and the absent id "9". -/
theorem deleteNote_spec_witness :
    (sampleApp.notes.map Note.id).Nodup ∧
    (deleteNote true true "1" sampleApp).notes.length + 1 = sampleApp.notes.length ∧
    (deleteNote true true "9" sampleApp).notes = sampleApp.notes :=
  ⟨by decide,
    ((deleteNote_spec sampleApp "1" (by decide)).1
      ⟨sampleNote "1" "A" true false, by decide, rfl⟩).1,
    (deleteNote_spec sampleApp "9" (by decide)).2.1 (by decide)⟩

/-- Claim C4 at `sampleApp` and id "1". -/
theorem toggle_flags_frame_witness :
    sampleApp.notes[0]? = some (sampleNote "1" "A" true false) ∧
    (∃ m, (toggleFavorite true "1" sampleApp).notes[0]? = some m ∧ m.favorite = false ∧
      m.archived = false ∧ m.title = "A") ∧
    (∃ m, (toggleArchive true "1" sampleApp).notes[0]? = some m ∧ m.archived = true ∧
      m.favorite = true ∧ m.title = "A") := by
  have h := (toggle_flags_frame sampleApp "1").2.2.2.2.1 0 (sampleNote "1" "A" true false) rfl
  obtain ⟨⟨m, hm, h1, _⟩, ⟨k, hk, h2, _⟩⟩ := h
  have h3 := h1 rfl
  have h4 := h2 rfl
  exact ⟨rfl, ⟨m, hm, h3.1, h3.2.1, h3.2.2.2.1⟩, ⟨k, hk, h4.1, h4.2.1, h4.2.2.2.1⟩⟩

/-- Claim C5 at `sampleApp`, mode "all" and the empty query. -/
theorem filteredNotes_spec_witness :
    sampleApp.filter = "all" ∧ sampleApp.searchQuery = "" ∧
    filteredNotes sampleApp = [sampleNote "1" "A" true false] ∧
    List.Sublist (filteredNotes sampleApp) sampleApp.notes :=
  ⟨rfl, rfl,
    ((filteredNotes_spec sampleApp).2 (sampleNote "1" "A" true false)
      (sampleNote "2" "B" false true) rfl rfl rfl rfl rfl rfl rfl rfl).1 rfl,
    ((filteredNotes_spec sampleApp).1 (Or.inl rfl)).1⟩

/-- Claim C6 at `sampleApp` with only the tags input filled. -/
theorem addOrUpdateNote_empty_noop_witness :
    ({ sampleApp with tags := "x, y" } : App).title = "" ∧
    (addOrUpdateNote true 7 { sampleApp with tags := "x, y" }).notes = sampleApp.notes ∧
    (addOrUpdateNote true 7 { sampleApp with tags := "x, y" }).stored = none :=
  ⟨rfl, (addOrUpdateNote_empty_noop { sampleApp with tags := "x, y" } true 7
      rfl rfl rfl rfl rfl).1,
    (addOrUpdateNote_empty_noop { sampleApp with tags := "x, y" } true 7
      rfl rfl rfl rfl rfl).2.2⟩

/-- The amended claim C7 at `sampleEvents`, whose clock readings are 5 and 6. -/
theorem ids_pairwise_distinct_witness :
    (freshSession none).notes = [] ∧
    creationClocks (freshSession none) sampleEvents = [5, 6] ∧
    ((run (freshSession none) sampleEvents).notes.map Note.id).Nodup :=
  ⟨rfl, by decide, (ids_pairwise_distinct (freshSession none) sampleEvents rfl (by decide)).1⟩

/-- Claim C9 at the input `"a, b ,,c"`. -/
theorem parseTags_spec_witness :
    (parseTags "a, b ,,c").length = "a, b ,,c".data.count ',' + 1 ∧
    createsNote composeState = true ∧
    (addOrUpdateNote true 7 composeState).notes.head?.map Note.tags =
      some (parseTags "a, b ,,c") :=
  ⟨(parseTags_spec "a, b ,,c").1, by decide,
    (parseTags_spec "a, b ,,c").2.2.2.1 composeState 7 rfl (by decide)⟩

/-- Claim C10 at `taggedNote` in `taggedApp`. -/
theorem edit_without_change_witness :
    (taggedApp.notes.map Note.id).Nodup ∧ taggedNote ∈ taggedApp.notes ∧
    (addOrUpdateNote true 0 (openEditModal taggedNote taggedApp)).notes = taggedApp.notes ∧
    parseTags (jsJoinCommaSpace taggedNote.tags) = taggedNote.tags := by
  have hclean : ∀ t ∈ taggedNote.tags, ',' ∉ t.data ∧
      (∀ c, t.data.head? = some c → isJsWhiteSpace c = false) ∧
      (∀ c, t.data.getLast? = some c → isJsWhiteSpace c = false) := by
    intro t ht
    simp only [taggedNote, List.mem_cons, List.mem_singleton, List.not_mem_nil, or_false] at ht
    rcases ht with rfl | rfl | rfl
    · refine ⟨by decide, fun c hc => ?_, fun c hc => ?_⟩
      · obtain rfl := Option.some.inj hc
        decide
      · obtain rfl := Option.some.inj hc
        decide
    · refine ⟨by decide, fun c hc => ?_, fun c hc => ?_⟩
      · obtain rfl := Option.some.inj hc
        decide
      · obtain rfl := Option.some.inj hc
        decide
    · refine ⟨by decide, fun c hc => ?_, fun c hc => ?_⟩
      · exact absurd hc (by simp)
      · exact absurd hc (by simp)
  have h := edit_without_change taggedApp taggedNote 0 (by decide) (by decide) (by decide)
    hclean (by decide) (by decide)
  exact ⟨by decide, by decide, h.1, h.2.2⟩

/-- Claim C8 at the empty list and at `sampleNotes`. -/
theorem save_load_roundtrip_witness :
    (saveNotes true [] (freshSession none)).stored = some "[]" ∧
    ∃ s1, loadNotes true (freshSession (saveNotes true sampleNotes sampleApp).stored) = some s1 ∧
      s1.notes = sampleNotes :=
  ⟨by decide,
    (save_load_roundtrip sampleNotes sampleApp).2.2.2.elim fun s1 h => ⟨s1, h.1, h.2.1⟩⟩

end NotesApp
